import Mathlib

/-!
Verification of the rfgrep search pipeline.

Texts and patterns are modelled as lists of bytes (`List ℕ`, each entry a
byte value), matching the Rust code's `&[u8]` view of its `&str` inputs:
`str::find`, the Boyer-Moore loop and the SIMD backends all operate on the
UTF-8 byte representation, and all reported offsets are byte offsets.
-/

namespace Rfgrep

/-- Byte `o` starts a genuine occurrence of `p` in `t`:
the `p.length` bytes of `t` starting at `o` equal `p`
(`take` returning a full-length slice also forces `o + p.length ≤ t.length`). -/
def occursAt (p t : List ℕ) (o : ℕ) : Prop :=
  (t.drop o).take p.length = p

instance occursAt.decidable (p t : List ℕ) (o : ℕ) : Decidable (occursAt p t o) := by
  unfold occursAt; infer_instance

/-- Embedding of `FallbackBackend::search` (src/simd.rs): an empty pattern
returns no matches; otherwise every window `i ∈ 0..=text_len-pat_len` is
compared against the pattern and matching start indices are collected. -/
def fallback_search (p t : List ℕ) : List ℕ :=
  if p = [] then []
  else if t.length < p.length then []
  else (List.range (t.length - p.length + 1)).filter (fun i => decide (occursAt p t i))

/-- Embedding of `SimdSearchEngine::new` + `search` (src/simd.rs): the CPU
probe results are the three booleans; each vectorised backend (unsafe
intrinsics code, not embedded) is a parameter.  Every accelerated branch
requires a non-empty pattern, so an empty pattern always reaches the
scalar `FallbackBackend`. -/
def simd_engine_search (avx512f avx2 sse42 : Bool)
    (avx512Impl avx2Impl sse42Impl : List ℕ → List ℕ → List ℕ)
    (p t : List ℕ) : List ℕ :=
  if avx512f ∧ p ≠ [] then avx512Impl p t
  else if avx2 ∧ p ≠ [] then avx2Impl p t
  else if sse42 ∧ p ≠ [] then sse42Impl p t
  else fallback_search p t

/-- Scan that models `str::find` on the suffix starting at `q`: try
positions `q, q+1, ...` for at most `steps` positions, returning the first
(i.e. leftmost) occurrence of `p`. -/
def scanForward (p t : List ℕ) : ℕ → ℕ → Option ℕ
  | _, 0 => none
  | q, steps + 1 => if occursAt p t q then some q else scanForward p t (q + 1) steps

/-- Absolute position of the leftmost occurrence of `p` in `t` at or after
`pos`; `search_text[pos..].find(&self.pattern)` returns this position minus
`pos`.  All candidate start positions `pos..=t.length` are scanned (an
empty pattern matches at the very end of the text, as `find` does). -/
def findAbs (p t : List ℕ) (pos : ℕ) : Option ℕ :=
  scanForward p t pos (t.length + 1 - pos)

theorem scanForward_some {p t : List ℕ} :
    ∀ {steps q r : ℕ}, scanForward p t q steps = some r →
      occursAt p t r ∧ q ≤ r ∧ r < q + steps ∧ ∀ m, q ≤ m → m < r → ¬ occursAt p t m := by
  intro steps
  induction steps with
  | zero => intro q r h; simp [scanForward] at h
  | succ n ih =>
    intro q r h
    by_cases hq : occursAt p t q
    · simp [scanForward, hq] at h
      subst h
      exact ⟨hq, le_refl q, by omega, fun m h1 h2 => by omega⟩
    · simp [scanForward, hq] at h
      obtain ⟨h1, h2, h3, h4⟩ := ih h
      refine ⟨h1, by omega, by omega, fun m hm1 hm2 => ?_⟩
      rcases Nat.eq_or_lt_of_le hm1 with rfl | hlt
      · exact hq
      · exact h4 m hlt hm2

theorem scanForward_none {p t : List ℕ} :
    ∀ {steps q : ℕ}, scanForward p t q steps = none →
      ∀ m, q ≤ m → m < q + steps → ¬ occursAt p t m := by
  intro steps
  induction steps with
  | zero => intro q _ m h1 h2; omega
  | succ n ih =>
    intro q h m h1 h2
    by_cases hq : occursAt p t q
    · simp [scanForward, hq] at h
    · simp [scanForward, hq] at h
      rcases Nat.eq_or_lt_of_le h1 with rfl | hlt
      · exact hq
      · exact ih h m hlt (by omega)

theorem findAbs_some {p t : List ℕ} {pos r : ℕ} (h : findAbs p t pos = some r) :
    occursAt p t r ∧ pos ≤ r ∧ ∀ m, pos ≤ m → m < r → ¬ occursAt p t m := by
  obtain ⟨h1, h2, _, h4⟩ := scanForward_some h
  exact ⟨h1, h2, h4⟩

theorem findAbs_ge {p t : List ℕ} {pos r : ℕ} (h : findAbs p t pos = some r) : pos ≤ r :=
  (findAbs_some h).2.1

/-- Occurrences of a non-empty pattern sit strictly inside the text. -/
theorem occursAt_lt_length {p t : List ℕ} {o : ℕ} (hp : p ≠ []) (h : occursAt p t o) :
    o + p.length ≤ t.length := by
  unfold occursAt at h
  have hlen : ((t.drop o).take p.length).length = p.length := by rw [h]
  have : min p.length (t.length - o) = p.length := by
    simpa [List.length_take, List.length_drop] using hlen
  have hple : 1 ≤ p.length := by
    cases p with
    | nil => exact absurd rfl hp
    | cons a l => simp
  omega

theorem findAbs_none {p t : List ℕ} {pos : ℕ} (hp : p ≠ []) (h : findAbs p t pos = none) :
    ∀ m, pos ≤ m → ¬ occursAt p t m := by
  intro m h1 hocc
  have hm := occursAt_lt_length hp hocc
  have hple : 1 ≤ p.length := by
    cases p with
    | nil => exact absurd rfl hp
    | cons a l => simp
  exact scanForward_none h m h1 (by omega) hocc

/-- Model of `str::is_char_boundary`: index 0 and the end of the string are
boundaries, an interior index is a boundary exactly when the byte there is
not a UTF-8 continuation byte (`0x80..0xBF`), and an out-of-range index is
not a boundary. -/
def isCharBoundary (t : List ℕ) (pos : ℕ) : Bool :=
  if pos = 0 then true
  else if pos < t.length then decide (t.getD pos 0 < 128 ∨ 192 ≤ t.getD pos 0)
  else decide (pos = t.length)

/-- Embedding of the `while let Some(found_pos) = search_text[pos..].find(...)`
loop of `SimpleSearch::search` (src/search_algorithms.rs): slicing
`search_text[pos..]` panics when `pos` is not a char boundary (modelled as
`none`); otherwise push the absolute match position, advance `pos` one past
the match start, and stop early once `pos` reaches the end of the text.
After a match at `q` the next slice is taken at `q + 1`, which sits inside
a multi-byte character whenever the byte there is a continuation byte, so
the loop can abort mid-scan. -/
def simpleLoop (p t : List ℕ) (pos : ℕ) : Option (List ℕ) :=
  if isCharBoundary t pos then
    match h : findAbs p t pos with
    | none => some []
    | some q =>
        if _hstop : t.length ≤ q + 1 then some [q]
        else
          match simpleLoop p t (q + 1) with
          | none => none
          | some rest => some (q :: rest)
  else none
termination_by t.length - pos
decreasing_by
  have := findAbs_ge h
  omega

/-- Embedding of the `SimpleSearch` struct (src/search_algorithms.rs):
pattern plus case-sensitivity flag. -/
structure SimpleSearch where
  pattern : List ℕ
  case_sensitive : Bool
deriving DecidableEq, Repr

/-- ASCII lower-casing of a byte, modelling `String::to_lowercase` on ASCII
input (the only branch of `SimpleSearch::search` that calls it is dead code:
both constructors set `case_sensitive: true`). -/
def asciiLowerByte (b : ℕ) : ℕ := if 65 ≤ b ∧ b ≤ 90 then b + 32 else b

/-- ASCII lower-casing of a byte string. -/
def asciiLower (l : List ℕ) : List ℕ := l.map asciiLowerByte

namespace SimpleSearch

/-- Embedding of `SimpleSearch::new`: despite being the constructor used for
the case-insensitive factory arm, it sets `case_sensitive: true`. -/
def new (p : List ℕ) : SimpleSearch := ⟨p, true⟩

/-- Embedding of `SimpleSearch::new_case_sensitive`. -/
def new_case_sensitive (p : List ℕ) : SimpleSearch := ⟨p, true⟩

/-- Embedding of `SimpleSearch::search`: fold the text to lower case when the
flag is off (ASCII model; the branch is unreachable from the constructors),
then run the scanning loop.  The pattern is never folded.  The result is
`some offsets` on normal completion and `none` when the loop panics on a
mid-character slice. -/
def search (s : SimpleSearch) (t : List ℕ) : Option (List ℕ) :=
  let search_text := if s.case_sensitive then t else asciiLower t
  simpleLoop s.pattern search_text 0

end SimpleSearch

/-- Embedding of the `SearchAlgorithm::Simple` arm of
`SearchAlgorithmFactory::create_with_case_sensitivity`
(src/search_algorithms.rs): the case-insensitive request is routed to
`SimpleSearch::new`. -/
def create_simple_with_case_sensitivity (p : List ℕ) (case_sensitive : Bool) : SimpleSearch :=
  if case_sensitive then SimpleSearch.new_case_sensitive p else SimpleSearch.new p

/-- Last index at which byte `b` occurs in `p`; models the final content of
the `HashMap` built by repeated `insert` in `build_bad_char_table`
(later insertions for the same byte overwrite earlier ones). -/
def lastIdxOf (p : List ℕ) (b : ℕ) : Option ℕ :=
  (List.range p.length).foldl (fun acc i => if p.getD i 0 = b then some i else acc) none

/-- Embedding of the bad-character shift lookup
`self.bad_char_table.get(&byte).unwrap_or(&pattern_len)`. -/
def bad_char_shift (p : List ℕ) (b : ℕ) : ℕ :=
  match lastIdxOf p b with
  | some i => p.length - 1 - i
  | none => p.length

/-- Embedding of `build_good_suffix_table`: a table of `1`s whose entry
`pattern_len - 2` is raised to `pattern_len` when the pattern has at least
two bytes. -/
def good_suffix_table (p : List ℕ) : List ℕ :=
  if 1 < p.length then (List.replicate p.length 1).set (p.length - 2) p.length
  else List.replicate p.length 1

theorem good_suffix_table_getD_pos (p : List ℕ) (n : ℕ) :
    1 ≤ (good_suffix_table p).getD n 1 := by
  have hmem : ∀ x ∈ good_suffix_table p, 1 ≤ x := by
    intro x hx
    unfold good_suffix_table at hx
    split at hx
    · rcases List.mem_or_eq_of_mem_set hx with h | rfl
      · have := List.eq_of_mem_replicate h
        omega
      · omega
    · have := List.eq_of_mem_replicate hx
      omega
  unfold List.getD
  cases hg : (good_suffix_table p).get? n with
  | none => simp
  | some v =>
    have := hmem v (List.get?_mem hg)
    simpa using this

/-- Embedding of the inner right-to-left comparison loop of
`BoyerMoore::search`: starting at pattern index `j` and text index `k`,
walk left while `j > 0` and the bytes agree, returning the final `(j, k)`. -/
def matchBack (p t : List ℕ) : ℕ → ℕ → ℕ × ℕ
  | 0, k => (0, k)
  | j + 1, k => if t.getD k 0 = p.getD (j + 1) 0 then matchBack p t j (k - 1) else (j + 1, k)

/-- Value pushed by one iteration of the outer `BoyerMoore::search` loop at
window end `i`: the match start `k` when the comparison walked down to
`j == 0` and the first byte also agrees. -/
def bm_push (p t : List ℕ) (i : ℕ) : List ℕ :=
  if (matchBack p t (p.length - 1) i).1 = 0 ∧
      t.getD (matchBack p t (p.length - 1) i).2 0 = p.getD 0 0
  then [(matchBack p t (p.length - 1) i).2] else []

/-- Shift applied by one iteration of the outer `BoyerMoore::search` loop at
window end `i`: the larger of the bad-character shift for `text[i]` and the
good-suffix shift for the final `j`. -/
def bm_shift (p t : List ℕ) (i : ℕ) : ℕ :=
  max (bad_char_shift p (t.getD i 0))
    (if (matchBack p t (p.length - 1) i).1 < p.length - 1
     then (good_suffix_table p).getD ((matchBack p t (p.length - 1) i).1 + 1) 1 else 1)

theorem bm_shift_pos (p t : List ℕ) (i : ℕ) : 1 ≤ bm_shift p t i := by
  unfold bm_shift
  have h := good_suffix_table_getD_pos p ((matchBack p t (p.length - 1) i).1 + 1)
  split <;> omega

/-- Embedding of the outer `while i < text_len` loop of `BoyerMoore::search`. -/
def bmLoop (p t : List ℕ) (i : ℕ) : List ℕ :=
  if _h : i < t.length then bm_push p t i ++ bmLoop p t (i + bm_shift p t i)
  else []
termination_by t.length - i
decreasing_by
  have := bm_shift_pos p t i
  omega

namespace BoyerMoore

/-- Embedding of `BoyerMoore::search` (src/search_algorithms.rs): empty
pattern or too-short text yields no matches, otherwise the shifted window
scan starting at `i = pattern_len - 1`. -/
def search (p t : List ℕ) : List ℕ :=
  if p.length = 0 ∨ t.length < p.length then []
  else bmLoop p t (p.length - 1)

end BoyerMoore

/-! ### Generic facts about the matcher embeddings -/

theorem sorted_lt_eq_of_mem_iff :
    ∀ {l₁ l₂ : List ℕ}, l₁.Sorted (· < ·) → l₂.Sorted (· < ·) →
      (∀ x, x ∈ l₁ ↔ x ∈ l₂) → l₁ = l₂ := by
  intro l₁
  induction l₁ with
  | nil =>
    intro l₂ _ _ hm
    cases l₂ with
    | nil => rfl
    | cons b bs => exact absurd ((hm b).2 (List.mem_cons_self b bs)) (List.not_mem_nil b)
  | cons a as ih =>
    intro l₂ h₁ h₂ hm
    cases l₂ with
    | nil => exact absurd ((hm a).1 (List.mem_cons_self a as)) (List.not_mem_nil a)
    | cons b bs =>
      rw [List.sorted_cons] at h₁ h₂
      have hab : a = b := by
        have ha : a ∈ b :: bs := (hm a).1 (List.mem_cons_self a as)
        have hb : b ∈ a :: as := (hm b).2 (List.mem_cons_self b bs)
        rcases List.mem_cons.1 ha with h | h
        · exact h
        · rcases List.mem_cons.1 hb with h2 | h2
          · omega
          · have := h₁.1 b h2
            have := h₂.1 a h
            omega
      subst hab
      have htails : ∀ x, x ∈ as ↔ x ∈ bs := by
        intro x
        constructor
        · intro hx
          have hlt := h₁.1 x hx
          rcases List.mem_cons.1 ((hm x).1 (List.mem_cons.2 (Or.inr hx))) with h | h
          · omega
          · exact h
        · intro hx
          have hlt := h₂.1 x hx
          rcases List.mem_cons.1 ((hm x).2 (List.mem_cons.2 (Or.inr hx))) with h | h
          · omega
          · exact h
      rw [ih h₁.2 h₂.2 htails]

theorem fallback_search_mem {p t : List ℕ} (hp : p ≠ []) (x : ℕ) :
    x ∈ fallback_search p t ↔ occursAt p t x := by
  have hple : 1 ≤ p.length := by
    cases p with
    | nil => exact absurd rfl hp
    | cons a l => simp
  unfold fallback_search
  rw [if_neg hp]
  split
  · constructor
    · intro h; exact absurd h (List.not_mem_nil x)
    · intro h
      have := occursAt_lt_length hp h
      omega
  · simp only [List.mem_filter, List.mem_range, decide_eq_true_eq]
    constructor
    · exact fun h => h.2
    · intro h
      have := occursAt_lt_length hp h
      exact ⟨by omega, h⟩

theorem fallback_search_sorted (p t : List ℕ) :
    (fallback_search p t).Sorted (· < ·) := by
  unfold fallback_search
  split
  · exact List.sorted_nil
  · split
    · exact List.sorted_nil
    · exact (List.sorted_lt_range _).filter _

theorem simpleLoop_eq_panic {p t : List ℕ} {pos : ℕ}
    (hb : ¬ isCharBoundary t pos = true) : simpleLoop p t pos = none := by
  rw [simpleLoop, if_neg hb]

theorem simpleLoop_eq_done {p t : List ℕ} {pos : ℕ}
    (hb : isCharBoundary t pos = true) (h : findAbs p t pos = none) :
    simpleLoop p t pos = some [] := by
  rw [simpleLoop, if_pos hb, h]

theorem simpleLoop_eq_stop {p t : List ℕ} {pos q : ℕ}
    (hb : isCharBoundary t pos = true) (h : findAbs p t pos = some q)
    (hstop : t.length ≤ q + 1) : simpleLoop p t pos = some [q] := by
  rw [simpleLoop, if_pos hb, h]
  exact dif_pos hstop

theorem simpleLoop_eq_go {p t : List ℕ} {pos q : ℕ}
    (hb : isCharBoundary t pos = true) (h : findAbs p t pos = some q)
    (hstop : ¬ t.length ≤ q + 1) :
    simpleLoop p t pos =
      match simpleLoop p t (q + 1) with
      | none => none
      | some rest => some (q :: rest) := by
  rw [simpleLoop, if_pos hb, h]
  exact dif_neg hstop

theorem simpleLoop_spec {p t : List ℕ} :
    ∀ pos, ∀ l, simpleLoop p t pos = some l →
      (∀ x ∈ l, pos ≤ x) ∧ l.Sorted (· < ·) ∧
      (p ≠ [] → ∀ x, x ∈ l ↔ (pos ≤ x ∧ occursAt p t x)) := by
  intro pos
  induction pos using simpleLoop.induct p t with
  | case1 pos hb hfind =>
    intro l hl
    rw [simpleLoop_eq_done hb hfind] at hl
    cases hl
    refine ⟨by simp, List.sorted_nil, fun hp x => ?_⟩
    simp only [List.not_mem_nil, false_iff]
    intro hx
    exact findAbs_none hp hfind x hx.1 hx.2
  | case2 pos hb q hfind hstop =>
    intro l hl
    rw [simpleLoop_eq_stop hb hfind hstop] at hl
    cases hl
    obtain ⟨hocc, hpos, hmin⟩ := findAbs_some hfind
    have hple : p ≠ [] → 1 ≤ p.length := by
      intro hp
      cases p with
      | nil => exact absurd rfl hp
      | cons a ps => simp
    refine ⟨by simpa using hpos, List.sorted_singleton q, fun hp x => ?_⟩
    simp only [List.mem_singleton]
    constructor
    · rintro rfl
      exact ⟨hpos, hocc⟩
    · intro ⟨hxpos, hxocc⟩
      rcases Nat.lt_trichotomy x q with hlt | rfl | hgt
      · exact absurd hxocc (hmin x hxpos hlt)
      · rfl
      · have := occursAt_lt_length hp hxocc
        have := hple hp
        omega
  | case3 pos hb q hfind hstop hnone ih =>
    intro l hl
    rw [simpleLoop_eq_go hb hfind hstop, hnone] at hl
    simp at hl
  | case4 pos hb q hfind hstop rest hrec ih =>
    intro l hl
    rw [simpleLoop_eq_go hb hfind hstop, hrec] at hl
    simp only [Option.some.injEq] at hl
    subst hl
    obtain ⟨hocc, hpos, hmin⟩ := findAbs_some hfind
    obtain ⟨ihlow, ihsorted, ihmem⟩ := ih rest hrec
    refine ⟨?_, ?_, ?_⟩
    · intro x hx
      rcases List.mem_cons.1 hx with rfl | hx
      · exact hpos
      · have := ihlow x hx
        omega
    · rw [List.sorted_cons]
      exact ⟨fun x hx => by have := ihlow x hx; omega, ihsorted⟩
    · intro hp x
      constructor
      · intro hx
        rcases List.mem_cons.1 hx with rfl | hx
        · exact ⟨hpos, hocc⟩
        · have := (ihmem hp x).1 hx
          exact ⟨by omega, this.2⟩
      · intro ⟨hxpos, hxocc⟩
        rcases Nat.lt_trichotomy x q with hlt | rfl | hgt
        · exact absurd hxocc (hmin x hxpos hlt)
        · exact List.mem_cons_self _ _
        · exact List.mem_cons.2 (Or.inr ((ihmem hp x).2 ⟨by omega, hxocc⟩))
  | case5 pos hb =>
    intro l hl
    rw [simpleLoop_eq_panic hb] at hl
    cases hl

theorem isCharBoundary_ascii {t : List ℕ} (ha : ∀ b ∈ t, b < 128) {pos : ℕ}
    (hpos : pos ≤ t.length) : isCharBoundary t pos = true := by
  unfold isCharBoundary
  by_cases h0 : pos = 0
  · simp [h0]
  · rw [if_neg h0]
    by_cases hlt : pos < t.length
    · rw [if_pos hlt]
      have hmem : t.getD pos 0 ∈ t := by
        rw [List.getD_eq_getElem t 0 hlt]
        exact List.getElem_mem hlt
      have h128 := ha _ hmem
      simp only [decide_eq_true_eq]
      exact Or.inl h128
    · rw [if_neg hlt]
      simp only [decide_eq_true_eq]
      omega

/-- On an all-ASCII text every slice position the loop reaches is a char
boundary, so the scan always completes without panicking. -/
theorem simpleLoop_ascii {p t : List ℕ} (ha : ∀ b ∈ t, b < 128) :
    ∀ pos, pos ≤ t.length → (simpleLoop p t pos).isSome := by
  intro pos
  induction pos using simpleLoop.induct p t with
  | case1 pos hb hfind =>
    intro _
    rw [simpleLoop_eq_done hb hfind]
    rfl
  | case2 pos hb q hfind hstop =>
    intro _
    rw [simpleLoop_eq_stop hb hfind hstop]
    rfl
  | case3 pos hb q hfind hstop hnone ih =>
    intro _
    have hrec := ih (by omega)
    rw [hnone] at hrec
    cases hrec
  | case4 pos hb q hfind hstop rest hrec ih =>
    intro _
    rw [simpleLoop_eq_go hb hfind hstop, hrec]
    rfl
  | case5 pos hb =>
    intro hpos
    exact absurd (isCharBoundary_ascii ha hpos) (by simp [hb])

theorem simple_search_eq_occurrences {p t : List ℕ} (hp : p ≠ []) {l : List ℕ}
    (h : (SimpleSearch.new p).search t = some l) : l = fallback_search p t := by
  have h2 : simpleLoop p t 0 = some l := h
  have hspec := simpleLoop_spec 0 l h2
  apply sorted_lt_eq_of_mem_iff hspec.2.1 (fallback_search_sorted p t)
  intro x
  rw [hspec.2.2 hp x, fallback_search_mem hp]
  simp

theorem simple_search_ascii_complete {p t : List ℕ} (hp : p ≠ [])
    (ha : ∀ b ∈ t, b < 128) :
    (SimpleSearch.new p).search t = some (fallback_search p t) := by
  have hsome := @simpleLoop_ascii p t ha 0 (by omega)
  cases h : simpleLoop p t 0 with
  | none => rw [h] at hsome; cases hsome
  | some l =>
    have hs : (SimpleSearch.new p).search t = some l := h
    rw [hs, simple_search_eq_occurrences hp hs]

/-! ### Boyer-Moore soundness and ordering -/

theorem matchBack_spec (p t : List ℕ) :
    ∀ j k, j ≤ k →
      (matchBack p t j k).1 ≤ j ∧
      j - (matchBack p t j k).1 = k - (matchBack p t j k).2 ∧
      (matchBack p t j k).2 ≤ k ∧
      (∀ m, (matchBack p t j k).1 < m → m ≤ j →
        t.getD ((matchBack p t j k).2 + (m - (matchBack p t j k).1)) 0 = p.getD m 0) := by
  intro j
  induction j with
  | zero =>
    intro k _
    refine ⟨le_refl 0, by simp [matchBack], by simp [matchBack], ?_⟩
    intro m h1 h2
    omega
  | succ n ih =>
    intro k hk
    by_cases heq : t.getD k 0 = p.getD (n + 1) 0
    · have hrec : matchBack p t (n + 1) k = matchBack p t n (k - 1) := by
        rw [matchBack, if_pos heq]
      obtain ⟨ih1, ih2, ih3, ih4⟩ := ih (k - 1) (by omega)
      rw [hrec]
      refine ⟨by omega, by omega, by omega, ?_⟩
      intro m h1 h2
      rcases Nat.lt_or_ge m (n + 1) with hm | hm
      · exact ih4 m h1 (by omega)
      · have hm1 : m = n + 1 := by omega
        subst hm1
        have harg : (matchBack p t n (k - 1)).2 + (n + 1 - (matchBack p t n (k - 1)).1) = k := by
          omega
        rw [harg, heq]
    · have hrec : matchBack p t (n + 1) k = (n + 1, k) := by
        rw [matchBack, if_neg heq]
      rw [hrec]
      refine ⟨le_refl _, by simp, le_refl _, ?_⟩
      intro m h1 h2
      omega

theorem occursAt_of_getD {p t : List ℕ} {o : ℕ} (hb : o + p.length ≤ t.length)
    (h : ∀ m < p.length, t.getD (o + m) 0 = p.getD m 0) : occursAt p t o := by
  unfold occursAt
  apply List.ext_getElem
  · simp
    omega
  · intro m hm1 hm2
    have hmp : m < p.length := by simpa using hm2
    have hmt : o + m < t.length := by omega
    have := h m hmp
    rw [List.getD_eq_getElem t 0 hmt, List.getD_eq_getElem p 0 hmp] at this
    rw [List.getElem_take, List.getElem_drop]
    exact this

theorem bm_push_sound {p t : List ℕ} (hp : 1 ≤ p.length) {i : ℕ}
    (hi : p.length - 1 ≤ i) (hlen : i < t.length) :
    ∀ x ∈ bm_push p t i, occursAt p t x ∧ x = i - (p.length - 1) := by
  intro x hx
  unfold bm_push at hx
  split at hx
  · rcases List.mem_cons.1 hx with rfl | hx
    · rename_i hcond
      obtain ⟨hj0, hfirst⟩ := hcond
      obtain ⟨s1, s2, s3, s4⟩ := matchBack_spec p t (p.length - 1) i hi
      set jk := matchBack p t (p.length - 1) i with hjk
      rw [hj0] at s2 s4
      have hk : jk.2 = i - (p.length - 1) := by omega
      refine ⟨?_, hk⟩
      apply occursAt_of_getD (by omega)
      intro m hm
      rcases Nat.eq_zero_or_pos m with rfl | hmpos
      · simpa using hfirst
      · have := s4 m (by omega) (by omega)
        simpa using this
    · exact absurd hx (List.not_mem_nil x)
  · exact absurd hx (List.not_mem_nil x)

theorem bmLoop_sound {p t : List ℕ} (hp : 1 ≤ p.length) :
    ∀ i, p.length - 1 ≤ i → ∀ x ∈ bmLoop p t i, occursAt p t x := by
  intro i
  induction i using bmLoop.induct p t with
  | case1 i hlen ih =>
    intro hi x hx
    rw [bmLoop, dif_pos hlen] at hx
    rcases List.mem_append.1 hx with hx | hx
    · exact (bm_push_sound hp hi hlen x hx).1
    · exact ih (by have := bm_shift_pos p t i; omega) x hx
  | case2 i hlen =>
    intro _ x hx
    rw [bmLoop, dif_neg hlen] at hx
    exact absurd hx (List.not_mem_nil x)

theorem bmLoop_lower {p t : List ℕ} (hp : 1 ≤ p.length) :
    ∀ i, p.length - 1 ≤ i → ∀ x ∈ bmLoop p t i, i - (p.length - 1) ≤ x := by
  intro i
  induction i using bmLoop.induct p t with
  | case1 i hlen ih =>
    intro hi x hx
    rw [bmLoop, dif_pos hlen] at hx
    rcases List.mem_append.1 hx with hx | hx
    · rw [(bm_push_sound hp hi hlen x hx).2]
    · have := ih (by have := bm_shift_pos p t i; omega) x hx
      have := bm_shift_pos p t i
      omega
  | case2 i hlen =>
    intro _ x hx
    rw [bmLoop, dif_neg hlen] at hx
    exact absurd hx (List.not_mem_nil x)

theorem bmLoop_sorted {p t : List ℕ} (hp : 1 ≤ p.length) :
    ∀ i, p.length - 1 ≤ i → (bmLoop p t i).Sorted (· < ·) := by
  intro i
  induction i using bmLoop.induct p t with
  | case1 i hlen ih =>
    intro hi
    rw [bmLoop, dif_pos hlen]
    have hshift := bm_shift_pos p t i
    have hrec := ih (by omega)
    unfold bm_push
    split
    · rw [List.singleton_append, List.sorted_cons]
      obtain ⟨s1, s2, s3, s4⟩ := matchBack_spec p t (p.length - 1) i hi
      rename_i hcond
      have hk : (matchBack p t (p.length - 1) i).2 = i - (p.length - 1) := by
        have := hcond.1
        omega
      rw [hk]
      constructor
      · intro x hx
        have := bmLoop_lower hp (i + bm_shift p t i) (by omega) x hx
        omega
      · exact hrec
    · simpa using hrec
  | case2 i hlen =>
    intro _
    rw [bmLoop, dif_neg hlen]
    exact List.sorted_nil

theorem bm_search_sound {p t : List ℕ} {o : ℕ} (h : o ∈ BoyerMoore.search p t) :
    occursAt p t o := by
  unfold BoyerMoore.search at h
  split at h
  · exact absurd h (List.not_mem_nil o)
  · rename_i hcond
    push_neg at hcond
    exact bmLoop_sound (by omega) (p.length - 1) (le_refl _) o h

theorem bm_search_sorted (p t : List ℕ) : (BoyerMoore.search p t).Sorted (· < ·) := by
  unfold BoyerMoore.search
  split
  · exact List.sorted_nil
  · rename_i hcond
    push_neg at hcond
    exact bmLoop_sorted (by omega) (p.length - 1) (le_refl _)

/-! ### Behaviour of the simple matcher on the empty pattern -/

theorem findAbs_empty_pattern {t : List ℕ} {pos : ℕ} (h : pos ≤ t.length) :
    findAbs [] t pos = some pos := by
  unfold findAbs
  have hsteps : t.length + 1 - pos = (t.length - pos) + 1 := by omega
  rw [hsteps, scanForward]
  simp [occursAt]

theorem simpleLoop_empty_pattern (t : List ℕ) :
    ∀ pos, pos ≤ t.length → ∀ l, simpleLoop [] t pos = some l →
      l = List.range' pos (max (t.length - pos) 1) := by
  intro pos
  induction pos using simpleLoop.induct ([]) t with
  | case1 pos hb hfind =>
    intro hpos l hl
    rw [findAbs_empty_pattern hpos] at hfind
    cases hfind
  | case2 pos hb q hfind hstop =>
    intro hpos l hl
    have hq : some pos = some q := (findAbs_empty_pattern hpos).symm.trans hfind
    cases hq
    rw [simpleLoop_eq_stop hb hfind hstop] at hl
    cases hl
    have hmax : max (t.length - pos) 1 = 1 := by omega
    rw [hmax]
    rfl
  | case3 pos hb q hfind hstop hnone ih =>
    intro hpos l hl
    rw [simpleLoop_eq_go hb hfind hstop, hnone] at hl
    simp at hl
  | case4 pos hb q hfind hstop rest hrec ih =>
    intro hpos l hl
    have hq : some pos = some q := (findAbs_empty_pattern hpos).symm.trans hfind
    cases hq
    rw [simpleLoop_eq_go hb hfind hstop, hrec] at hl
    simp only [Option.some.injEq] at hl
    subst hl
    rw [ih (by omega) rest hrec]
    have h1 : max (t.length - pos) 1 = (t.length - pos - 1) + 1 := by omega
    have h2 : max (t.length - (pos + 1)) 1 = t.length - pos - 1 := by omega
    rw [h1, h2, List.range'_succ]
  | case5 pos hb =>
    intro hpos l hl
    rw [simpleLoop_eq_panic hb] at hl
    cases hl

/-- On an all-ASCII text the empty-pattern scan completes and returns one
offset per scan position. -/
theorem simple_search_empty_ascii (t : List ℕ) (ha : ∀ b ∈ t, b < 128) :
    (SimpleSearch.new []).search t = some (List.range (max t.length 1)) := by
  have hsome := @simpleLoop_ascii [] t ha 0 (by omega)
  cases h : simpleLoop [] t 0 with
  | none => rw [h] at hsome; cases hsome
  | some l =>
    have hs : (SimpleSearch.new []).search t = some l := h
    rw [hs, simpleLoop_empty_pattern t 0 (by omega) l h, List.range_eq_range']
    simp

/-! ### Claim theorems: matchers -/

/-- C1: every offset returned by the Boyer-Moore, simple, or SIMD scalar
fallback matcher on a non-empty pattern is a genuine occurrence: the
pattern-length slice of the text starting there equals the pattern (for the
simple matcher, whose scan can also abort on a mid-character slice, this
covers every offset list it actually returns). -/
theorem exact_matchers_sound (p t : List ℕ) (o : ℕ) (hp : p ≠ []) :
    (o ∈ BoyerMoore.search p t → occursAt p t o) ∧
    (∀ l, (SimpleSearch.new p).search t = some l → o ∈ l → occursAt p t o) ∧
    (o ∈ fallback_search p t → occursAt p t o) := by
  refine ⟨fun h => bm_search_sound h, fun l hl h => ?_,
    fun h => (fallback_search_mem hp o).1 h⟩
  have hl2 : simpleLoop p t 0 = some l := hl
  exact (((simpleLoop_spec 0 l hl2).2.2 hp o).1 h).2

theorem exact_matchers_sound_witness :
    ([97, 98] : List ℕ) ≠ [] ∧ occursAt [97, 98] [99, 97, 98] 1 :=
  ⟨by decide, (exact_matchers_sound [97, 98] [99, 97, 98] 1 (by decide)).2.2 (by decide)⟩

/-- C2 counterexample: on pattern `aba` and text `ababa`, Boyer-Moore reports
only offset 0 while the simple matcher and the SIMD scalar fallback both
report 0 and 2 (the code's simplified good-suffix shift of `pattern_len`
after a full match skips the overlapping occurrence), so the three
byte-search matchers do not agree on the multiset of offsets. -/
theorem byte_matchers_disagree :
    BoyerMoore.search [97, 98, 97] [97, 98, 97, 98, 97] = [0] ∧
    (SimpleSearch.new [97, 98, 97]).search [97, 98, 97, 98, 97] = some [0, 2] ∧
    fallback_search [97, 98, 97] [97, 98, 97, 98, 97] = [0, 2] ∧
    ([0] : List ℕ) ≠ [0, 2] := by
  refine ⟨?_, ?_, by decide, by decide⟩
  · simp [BoyerMoore.search, bmLoop, bm_push, bm_shift, matchBack, bad_char_shift,
      lastIdxOf, good_suffix_table, List.range_succ]
  · simp [SimpleSearch.new, SimpleSearch.search, simpleLoop, findAbs, scanForward, occursAt,
      isCharBoundary]

/-- C2 amended: for every non-empty pattern, whenever `SimpleSearch::search`
completes without panicking its offset list equals the SIMD scalar
fallback's (so they agree as multisets); on all-ASCII texts it always
completes, so the two agree outright there.  The simple scanner can panic
on a mid-character slice (pattern `é`, text `éé`: the fallback reports
offsets 0 and 2, the simple matcher aborts after the first match), and
Boyer-Moore is excluded because it can miss overlapping occurrences. -/
theorem simple_fallback_agree (p t : List ℕ) (hp : p ≠ []) :
    (∀ l, (SimpleSearch.new p).search t = some l → l = fallback_search p t) ∧
    ((∀ b ∈ t, b < 128) → (SimpleSearch.new p).search t = some (fallback_search p t)) ∧
    ((SimpleSearch.new [195, 169]).search [195, 169, 195, 169] = none ∧
      fallback_search [195, 169] [195, 169, 195, 169] = [0, 2]) := by
  refine ⟨fun l hl => simple_search_eq_occurrences hp hl,
    fun ha => simple_search_ascii_complete hp ha, ?_, by decide⟩
  simp [SimpleSearch.new, SimpleSearch.search, simpleLoop, findAbs, scanForward, occursAt,
    isCharBoundary]

theorem simple_fallback_agree_witness :
    ([97] : List ℕ) ≠ [] ∧ (∀ b ∈ ([97, 98, 97] : List ℕ), b < 128) ∧
    (SimpleSearch.new [97]).search [97, 98, 97] = some (fallback_search [97] [97, 98, 97]) :=
  ⟨by decide, by decide,
    (simple_fallback_agree [97] [97, 98, 97] (by decide)).2.1 (by decide)⟩

/-- C3 counterexample: the simple matcher does not return the empty offset
sequence for the empty pattern; `find("")` matches at every scan position,
so even on the empty text it reports offset 0. -/
theorem simple_empty_pattern_nonempty :
    (SimpleSearch.new []).search [] = some [0] ∧
    (SimpleSearch.new []).search [97, 98, 99] = some [0, 1, 2] := by
  constructor <;>
    simp [SimpleSearch.new, SimpleSearch.search, simpleLoop, findAbs, scanForward, occursAt,
      isCharBoundary]

/-- C3 amended: the empty pattern yields the empty offset sequence in
Boyer-Moore and in the SIMD engine (whose accelerated branches all require a
non-empty pattern, so it always reaches the scalar fallback, which checks
`is_empty`); the simple matcher instead scans every byte position, so
whenever it completes it returns `[0, ..., max(|t|,1) - 1]`, and on
all-ASCII texts it always completes with that list (on a text with a
multi-byte character it panics at the first mid-character slice instead).
(The regex matcher delegates to the external regex engine and is not part
of the embedded code.) -/
theorem empty_pattern_offsets (t : List ℕ) (avx512f avx2 sse42 : Bool)
    (avx512Impl avx2Impl sse42Impl : List ℕ → List ℕ → List ℕ) :
    BoyerMoore.search [] t = [] ∧
    fallback_search [] t = [] ∧
    simd_engine_search avx512f avx2 sse42 avx512Impl avx2Impl sse42Impl [] t = [] ∧
    (∀ l, (SimpleSearch.new []).search t = some l → l = List.range (max t.length 1)) ∧
    ((∀ b ∈ t, b < 128) →
      (SimpleSearch.new []).search t = some (List.range (max t.length 1))) := by
  refine ⟨by simp [BoyerMoore.search], rfl,
    by simp [simd_engine_search, fallback_search], fun l hl => ?_,
    fun ha => simple_search_empty_ascii t ha⟩
  have hl2 : simpleLoop [] t 0 = some l := hl
  rw [simpleLoop_empty_pattern t 0 (by omega) l hl2, List.range_eq_range']
  simp

theorem empty_pattern_offsets_witness :
    (∀ b ∈ ([97, 98, 99] : List ℕ), b < 128) ∧
    (SimpleSearch.new []).search [97, 98, 99] =
      some (List.range (max ([97, 98, 99] : List ℕ).length 1)) :=
  ⟨by decide,
    (empty_pattern_offsets [97, 98, 99] false false false
      (fun _ _ => []) (fun _ _ => []) (fun _ _ => [])).2.2.2.2 (by decide)⟩

/-- C4 counterexample: searching for `aa` in `aaaa` returns the overlapping
offsets 0, 1, 2 in all three byte matchers, not the non-overlapping 0 and 2
the claim requires (consecutive offsets differ by 1, less than the pattern
length 2). -/
theorem overlapping_matches_reported :
    BoyerMoore.search [97, 97] [97, 97, 97, 97] = [0, 1, 2] ∧
    (SimpleSearch.new [97, 97]).search [97, 97, 97, 97] = some [0, 1, 2] ∧
    fallback_search [97, 97] [97, 97, 97, 97] = [0, 1, 2] ∧
    ([0, 1, 2] : List ℕ) ≠ [0, 2] := by
  refine ⟨?_, ?_, by decide, by decide⟩
  · simp [BoyerMoore.search, bmLoop, bm_push, bm_shift, matchBack, bad_char_shift,
      lastIdxOf, good_suffix_table, List.range_succ]
  · simp [SimpleSearch.new, SimpleSearch.search, simpleLoop, findAbs, scanForward, occursAt,
      isCharBoundary]

/-- C4 amended: the byte-search matchers report strictly increasing but
possibly overlapping offsets (consecutive offsets can differ by as little
as one byte); `aa` in `aaaa` yields exactly 0, 1, 2 in all three.  For the
simple matcher the ordering statement covers every offset list an actual
(non-panicking) run returns. -/
theorem byte_matchers_strictly_increasing :
    (∀ p t : List ℕ,
      (BoyerMoore.search p t).Sorted (· < ·) ∧
      (∀ l, (SimpleSearch.new p).search t = some l → l.Sorted (· < ·)) ∧
      (fallback_search p t).Sorted (· < ·)) ∧
    BoyerMoore.search [97, 97] [97, 97, 97, 97] = [0, 1, 2] ∧
    (SimpleSearch.new [97, 97]).search [97, 97, 97, 97] = some [0, 1, 2] ∧
    fallback_search [97, 97] [97, 97, 97, 97] = [0, 1, 2] := by
  refine ⟨fun p t => ⟨bm_search_sorted p t, fun l hl => ?_, fallback_search_sorted p t⟩,
    ?_, ?_, by decide⟩
  · have hl2 : simpleLoop p t 0 = some l := hl
    exact (simpleLoop_spec 0 l hl2).2.1
  · simp [BoyerMoore.search, bmLoop, bm_push, bm_shift, matchBack, bad_char_shift,
      lastIdxOf, good_suffix_table, List.range_succ]
  · simp [SimpleSearch.new, SimpleSearch.search, simpleLoop, findAbs, scanForward, occursAt,
      isCharBoundary]

theorem byte_matchers_strictly_increasing_witness :
    (SimpleSearch.new [97, 97]).search [97, 97, 97, 97] = some [0, 1, 2] ∧
    ([0, 1, 2] : List ℕ).Sorted (· < ·) :=
  ⟨by simp [SimpleSearch.new, SimpleSearch.search, simpleLoop, findAbs, scanForward,
      occursAt, isCharBoundary],
    (byte_matchers_strictly_increasing.1 [97, 97] [97, 97, 97, 97]).2.1 [0, 1, 2]
      (by simp [SimpleSearch.new, SimpleSearch.search, simpleLoop, findAbs, scanForward,
        occursAt, isCharBoundary])⟩

/-! ### Line splitting, as performed by `str::lines` and `str::rfind` -/

/-- Strip one trailing carriage return, as `str::lines` does for every line
that was terminated by a newline. -/
def stripCr (l : List ℕ) : List ℕ :=
  if l.getLast? = some 13 then l.dropLast else l

/-- Model of `str::lines` on UTF-8 bytes: split on the newline byte; every
piece except the last was terminated by a newline and has a trailing
carriage return stripped; a final empty piece (text ending in a newline, or
empty text) yields no line. -/
def rustLines (t : List ℕ) : List (List ℕ) :=
  let ps := t.splitOn 10
  ps.dropLast.map stripCr ++
    (match ps.getLast? with
     | some [] => []
     | some l => [l]
     | none => [])

/-- Model of `text.rfind('\n')`: the last index of the newline byte. -/
def rfindNl (t : List ℕ) : Option ℕ := lastIdxOf t 10

/-- Record produced by `search_with_context` in src/search_algorithms.rs
(distinct from the processor record: it carries no file path). -/
structure SearchMatch where
  line_number : ℕ
  line : List ℕ
  context_before : List (ℕ × List ℕ)
  context_after : List (ℕ × List ℕ)
  matched_text : List ℕ
  column_start : ℕ
  column_end : ℕ
deriving DecidableEq, Repr

/-- Embedding of the `get_context_before` helper shared by the matchers
(src/search_algorithms.rs): the up-to-`k` lines before `current_line`,
with 1-based numbering. -/
def get_context_before (lines : List (List ℕ)) (current_line k : ℕ) :
    List (ℕ × List ℕ) :=
  (List.range' (current_line - k) (current_line - (current_line - k))).map
    (fun i => (i + 1, lines.getD i []))

/-- Embedding of the `get_context_after` helper shared by the matchers
(src/search_algorithms.rs): the up-to-`k` lines after `current_line`. -/
def get_context_after (lines : List (List ℕ)) (current_line k : ℕ) :
    List (ℕ × List ℕ) :=
  (List.range' (current_line + 1) (min (current_line + k + 1) lines.length - (current_line + 1))).map
    (fun i => (i + 1, lines.getD i []))

namespace BoyerMoore

/-- Embedding of `BoyerMoore::search_with_context`
(src/search_algorithms.rs): for each reported offset, derive the line
number from `text[..match_pos].lines().count()` (clamped to at least 1),
the column from the last newline before the match, and the record is kept
only when the derived line index is in range. -/
def search_with_context (p t : List ℕ) (context_lines : ℕ) : List SearchMatch :=
  let lines := rustLines t
  (search p t).filterMap (fun match_pos =>
    let pre_lines := (rustLines (t.take match_pos)).length
    let line_number := max pre_lines 1
    let line_index := line_number - 1
    if line_index < lines.length then
      let line := lines.getD line_index []
      let line_start := (rfindNl (t.take match_pos)).getD 0
      let column_start := match_pos - line_start
      let column_end := column_start + p.length
      some { line_number := line_number
             line := line
             context_before := get_context_before lines line_index context_lines
             context_after := get_context_after lines line_index context_lines
             matched_text :=
               if column_start < line.length ∧ column_end ≤ line.length then
                 (line.drop column_start).take (column_end - column_start)
               else p
             column_start := column_start
             column_end := column_end }
    else none)

end BoyerMoore

/-- C6: the context wrapper violates the Match record invariants.  For
pattern `def` and text `abc\ndef` the only genuine occurrence is at byte 4,
the start of line 2; the produced record reports line_number 1 with line
`abc`, column_start 1 and column_end 4, so `column_end ≤ len(line)` fails
(4 > 3) and the reported line is not the line containing the match. -/
theorem context_wrapper_breaks_invariants :
    BoyerMoore.search_with_context [100, 101, 102] [97, 98, 99, 10, 100, 101, 102] 0 =
      [⟨1, [97, 98, 99], [], [], [100, 101, 102], 1, 4⟩] ∧
    ¬((⟨1, [97, 98, 99], [], [], [100, 101, 102], 1, 4⟩ : SearchMatch).column_end ≤
        ([97, 98, 99] : List ℕ).length) := by
  have hsearch : BoyerMoore.search [100, 101, 102] [97, 98, 99, 10, 100, 101, 102] = [4] := by
    simp [BoyerMoore.search, bmLoop, bm_push, bm_shift, matchBack, bad_char_shift,
      lastIdxOf, good_suffix_table, List.range_succ]
  refine ⟨?_, by decide⟩
  unfold BoyerMoore.search_with_context
  rw [hsearch]
  decide

/-! ### Streaming per-file search (src/streaming_search.rs)

`process_file_streaming` reads lines from a `BufReader`; a line read yields
either a UTF-8 line, an invalid-UTF-8 error (skipped by the main loop but
fatal inside the context-after reader), or another I/O error (always
fatal).  The algorithm object behind `&dyn SearchAlgorithmTrait` is the
`search` function parameter; `create_search_algorithm` passes the original
pattern through unchanged for the non-regex algorithms, and its
`BoyerMoore` arm yields exactly `BoyerMoore::search pattern`. -/

/-- Outcome of one `lines.next()` call on the buffered reader. -/
inductive LineRead where
  | ok (line : List ℕ)
  | invalidUtf8
  | ioError
deriving DecidableEq, Repr

/-- Record produced by the processor / consumed by the orchestrator
(src/processor.rs `SearchMatch`): the streaming record plus the file path. -/
structure ProcessorSearchMatch where
  path : List ℕ
  line_number : ℕ
  line : List ℕ
  context_before : List (ℕ × List ℕ)
  context_after : List (ℕ × List ℕ)
  matched_text : List ℕ
  column_start : ℕ
  column_end : ℕ
deriving DecidableEq, Repr

/-- Width in bytes of the UTF-8 character whose leading byte is `b`. -/
def utf8CharLen (b : ℕ) : ℕ :=
  if b < 128 then 1 else if b < 224 then 2 else if b < 240 then 3 else 4

/-- Model of `s.chars().take(n).collect::<String>()` on UTF-8 bytes: keep at
most `n` characters, walking byte widths from each leading byte. -/
def takeChars : ℕ → List ℕ → List ℕ
  | 0, _ => []
  | _, [] => []
  | n + 1, b :: rest =>
      b :: rest.take (utf8CharLen b - 1) ++ takeChars n (rest.drop (utf8CharLen b - 1))

/-- Embedding of `StreamingSearchPipeline::get_context_before`: entries of
the ring buffer whose line number lies in `[current_line - k, current_line)`. -/
def getCtxBeforeStream (context_lines : ℕ) (buf : List (ℕ × List ℕ)) (current_line : ℕ) :
    List (ℕ × List ℕ) :=
  buf.filter (fun x =>
    decide (current_line - context_lines ≤ x.1) && decide (x.1 < current_line))

/-- Embedding of `StreamingSearchPipeline::get_context_after`: consume up to
`k` further lines from the shared reader, numbering them from
`current_line + 1`; a read error is propagated, end of input stops early. -/
def getCtxAfterStream : ℕ → ℕ → List LineRead →
    Except Unit (List (ℕ × List ℕ) × List LineRead)
  | 0, _, rem => .ok ([], rem)
  | _ + 1, _, [] => .ok ([], [])
  | k + 1, ln, r :: rem =>
      match r with
      | .ok l =>
          match getCtxAfterStream k (ln + 1) rem with
          | .ok (rest, rem2) => .ok ((ln + 1, l) :: rest, rem2)
          | .error e => .error e
      | _ => .error ()

theorem getCtxAfterStream_length :
    ∀ {k ln : ℕ} {rem : List LineRead} {ctx : List (ℕ × List ℕ)} {rem2 : List LineRead},
      getCtxAfterStream k ln rem = .ok (ctx, rem2) → rem2.length ≤ rem.length := by
  intro k
  induction k with
  | zero =>
    intro ln rem ctx rem2 h
    simp only [getCtxAfterStream] at h
    cases h
    exact le_refl _
  | succ n ih =>
    intro ln rem ctx rem2 h
    cases rem with
    | nil =>
      simp only [getCtxAfterStream] at h
      cases h
      exact le_refl _
    | cons r rest =>
      cases r with
      | ok l =>
        simp only [getCtxAfterStream] at h
        cases hrec : getCtxAfterStream n (ln + 1) rest with
        | error e => rw [hrec] at h; cases h
        | ok pr =>
          rw [hrec] at h
          cases h
          have := ih hrec
          simp at this ⊢
          omega
      | invalidUtf8 => simp only [getCtxAfterStream] at h; cases h
      | ioError => simp only [getCtxAfterStream] at h; cases h

/-- One line's inner `for match_pos in line_matches` loop of
`process_file_streaming`: each match builds a record, consuming
context-after lines from the shared reader. -/
def handleMatches (context_lines : ℕ) (line : List ℕ) (ln : ℕ) (buf : List (ℕ × List ℕ)) :
    List ℕ → List LineRead → Except Unit (List SearchMatch × List LineRead)
  | [], rem => .ok ([], rem)
  | pos :: ps, rem =>
      match getCtxAfterStream context_lines ln rem with
      | .error e => .error e
      | .ok (after, rem2) =>
          match handleMatches context_lines line ln buf ps rem2 with
          | .error e => .error e
          | .ok (rs, rem3) =>
              .ok ({ line_number := ln
                     line := line
                     context_before := getCtxBeforeStream context_lines buf ln
                     context_after := after
                     matched_text :=
                       if pos + 1 < line.length then takeChars 50 (line.drop pos) else line
                     column_start := pos
                     column_end := pos + 1 } :: rs, rem3)

theorem handleMatches_length {context_lines : ℕ} {line : List ℕ} {ln : ℕ}
    {buf : List (ℕ × List ℕ)} :
    ∀ {ps : List ℕ} {rem : List LineRead} {rs : List SearchMatch} {rem2 : List LineRead},
      handleMatches context_lines line ln buf ps rem = .ok (rs, rem2) →
      rem2.length ≤ rem.length := by
  intro ps
  induction ps with
  | nil =>
    intro rem rs rem2 h
    simp only [handleMatches] at h
    cases h
    exact le_refl _
  | cons pos ps ih =>
    intro rem rs rem2 h
    simp only [handleMatches] at h
    split at h
    · cases h
    · split at h
      · cases h
      · cases h
        rename_i after remA hctx rs2 remB hrec
        calc rem2.length ≤ remA.length := ih hrec
          _ ≤ rem.length := getCtxAfterStream_length hctx

/-- Embedding of the main `while let Some(line_result) = lines.next()` loop
of `process_file_streaming`: the line counter is advanced for every read
(including skipped invalid-UTF-8 lines, but not for context-after reads,
whose consumption is local to `get_context_after`); the ring buffer keeps
the most recent `2k + 1` lines. -/
def processLoop (context_lines : ℕ) (search : List ℕ → List ℕ) :
    List LineRead → ℕ → List (ℕ × List ℕ) → Except Unit (List SearchMatch)
  | [], _, _ => .ok []
  | r :: rem, line_number, buf =>
      match r with
      | .invalidUtf8 => processLoop context_lines search rem (line_number + 1) buf
      | .ioError => .error ()
      | .ok line =>
          let ln := line_number + 1
          let buf1 := buf ++ [(ln, line)]
          let buf2 := if context_lines * 2 + 1 < buf1.length then buf1.drop 1 else buf1
          match hm : handleMatches context_lines line ln buf2 (search line) rem with
          | .error e => .error e
          | .ok (recs, rem2) =>
              match processLoop context_lines search rem2 ln buf2 with
              | .error e => .error e
              | .ok more => .ok (recs ++ more)
termination_by l => l.length
decreasing_by
  · simp
  · have := handleMatches_length hm
    simp
    omega

/-- Embedding of `StreamingSearchPipeline::apply_post_processing`
(src/streaming_search.rs): with `invert_match` a record is kept exactly
when its `matched_text` is empty, otherwise exactly when it is non-empty;
kept records get the file path attached. -/
def applyPostProcessing (invert_match : Bool) (path : List ℕ) (ms : List SearchMatch) :
    List ProcessorSearchMatch :=
  ms.filterMap (fun m =>
    if (if invert_match then m.matched_text.isEmpty else !m.matched_text.isEmpty) then
      some { path := path
             line_number := m.line_number
             line := m.line
             context_before := m.context_before
             context_after := m.context_after
             matched_text := m.matched_text
             column_start := m.column_start
             column_end := m.column_end }
    else none)

/-- Per-file result assembly of `StreamingSearchPipeline::search_file` for a
plain (non-archive, non-compressed) file: stream the lines, post-process,
then truncate to `max_matches` when that limit is exceeded. -/
def search_file_streaming (context_lines : ℕ) (invert_match : Bool) (max_matches : Option ℕ)
    (search : List ℕ → List ℕ) (path : List ℕ) (input : List LineRead) :
    Except Unit (List ProcessorSearchMatch) :=
  match processLoop context_lines search input 0 [] with
  | .error e => .error e
  | .ok ms =>
      let fin := applyPostProcessing invert_match path ms
      .ok (match max_matches with
           | some mm => if mm < fin.length then fin.take mm else fin
           | none => fin)

/-- Embedding of the timeout wrapper at the end of
`StreamingSearchPipeline::search_file`: when `timeout_per_file` is set, the
search future is raced against the clock; `elapsed = true` models the
`Err(_elapsed)` arm of `tokio::time::timeout` (the same conversion is used
on the `RFGREP_WORKER_SLEEP` test path), in which case the file yields
`Ok(vec![])` and the underlying result is discarded. -/
def search_file_with_timeout (timeout_per_file : Option ℕ) (elapsed : Bool)
    (result : Except Unit (List ProcessorSearchMatch)) :
    Except Unit (List ProcessorSearchMatch) :=
  match timeout_per_file with
  | some _ => if elapsed then .ok [] else result
  | none => result

theorem handleMatches_nil (k : ℕ) (line : List ℕ) (ln : ℕ) (buf : List (ℕ × List ℕ))
    (rem : List LineRead) : handleMatches k line ln buf [] rem = .ok ([], rem) := rfl

/-- C7: in the streaming pipeline, `invert_match` emits nothing.  Records
are only created for lines on which the matcher reports an offset, and each
such record carries a non-empty `matched_text`; `apply_post_processing`
with `invert_match` keeps exactly the records with empty `matched_text`, so
the inverted run of a two-line file (line 1 `a`, line 2 `b`, pattern `a`)
yields no records at all, while the plain run yields the line-1 record:
line 2 is emitted by neither, so the two line-number sets are {} and {1},
not complementary within [1, 2], and no inverted record with column span
(0, line_length) exists for line 2. -/
theorem invert_match_emits_nothing :
    search_file_streaming 0 true none (BoyerMoore.search [97]) [102]
      [.ok [97], .ok [98]] = .ok [] ∧
    search_file_streaming 0 false none (BoyerMoore.search [97]) [102]
      [.ok [97], .ok [98]] = .ok [⟨[102], 1, [97], [], [], [97], 0, 1⟩] ∧
    ¬(2 ∈ List.map ProcessorSearchMatch.line_number ([] : List ProcessorSearchMatch) ∨
      2 ∈ List.map ProcessorSearchMatch.line_number
            [(⟨[102], 1, [97], [], [], [97], 0, 1⟩ : ProcessorSearchMatch)]) := by
  have h1 : BoyerMoore.search [97] [97] = [0] := by
    simp [BoyerMoore.search, bmLoop, bm_push, bm_shift, matchBack, bad_char_shift,
      lastIdxOf, good_suffix_table, List.range_succ]
  have h2 : BoyerMoore.search [97] [98] = [] := by
    simp [BoyerMoore.search, bmLoop, bm_push, bm_shift, matchBack, bad_char_shift,
      lastIdxOf, good_suffix_table, List.range_succ]
  have hp2 : processLoop 0 (BoyerMoore.search [97]) [LineRead.ok [98]] 1 [(1, [97])] =
      .ok [] := by
    simp only [processLoop]
    split
    · rename_i e hm
      rw [h2] at hm
      simp [handleMatches_nil] at hm
    · rename_i recs rem2 hm
      rw [h2] at hm
      simp [handleMatches_nil] at hm
      obtain ⟨hrecs, hrem⟩ := hm
      subst hrecs
      subst hrem
      simp [processLoop]
  have hp1 : processLoop 0 (BoyerMoore.search [97]) [LineRead.ok [97], LineRead.ok [98]] 0 [] =
      .ok [⟨1, [97], [], [], [97], 0, 1⟩] := by
    simp only [processLoop]
    split
    · rename_i e hm
      rw [h1] at hm
      simp at hm
      rw [show handleMatches 0 [97] 1 [(1, [97])] [0] [LineRead.ok [98]] =
        (Except.ok ([⟨1, [97], [], [], [97], 0, 1⟩], [LineRead.ok [98]]) :
          Except Unit (List SearchMatch × List LineRead)) from rfl] at hm
      cases hm
    · rename_i recs rem2 hm
      rw [h1] at hm
      simp at hm
      rw [show handleMatches 0 [97] 1 [(1, [97])] [0] [LineRead.ok [98]] =
        (Except.ok ([⟨1, [97], [], [], [97], 0, 1⟩], [LineRead.ok [98]]) :
          Except Unit (List SearchMatch × List LineRead)) from rfl] at hm
      simp only [Except.ok.injEq, Prod.mk.injEq] at hm
      obtain ⟨hrecs, hrem⟩ := hm
      subst hrecs
      subst hrem
      simp [hp2]
  refine ⟨?_, ?_, by decide⟩ <;>
    simp [search_file_streaming, hp1, applyPostProcessing]

/-! ### The derived record order used by `all_matches.sort()`

`ProcessorSearchMatch` derives `Ord` in the source; the derived comparison
is lexicographic in field declaration order (path, line_number, line,
context_before, context_after, matched_text, column_start, column_end),
with `Vec`/`String`/`PathBuf` compared lexicographically element by element
(a strict prefix is smaller) and `usize` numerically.  `Vec::sort` is a
stable sort by that order, modelled below by `List.insertionSort` (stable
sorts by the same total preorder coincide). -/

/-- Lexicographic comparison of lists under an element comparator, as the
derived `Ord` of Rust `Vec`/`String`/`PathBuf` performs it. -/
def listCmp {α : Type} (cmp : α → α → Ordering) : List α → List α → Ordering
  | [], [] => .eq
  | [], _ :: _ => .lt
  | _ :: _, [] => .gt
  | a :: as, b :: bs => (cmp a b).then (listCmp cmp as bs)

theorem ordThenLt (x : Ordering) : Ordering.lt.then x = .lt := rfl

theorem ordThenEq (x : Ordering) : Ordering.eq.then x = x := rfl

theorem ordThenGt (x : Ordering) : Ordering.gt.then x = .gt := rfl

theorem listCmp_swap {α : Type} (cmp : α → α → Ordering) [Batteries.OrientedCmp cmp] :
    ∀ x y : List α, (listCmp cmp x y).swap = listCmp cmp y x := by
  intro x
  induction x with
  | nil => intro y; cases y <;> rfl
  | cons a as ih =>
    intro y
    cases y with
    | nil => rfl
    | cons b bs =>
      show ((cmp a b).then (listCmp cmp as bs)).swap = (cmp b a).then (listCmp cmp bs as)
      rw [Ordering.swap_then, Batteries.OrientedCmp.symm, ih]

theorem listCmp_le_trans {α : Type} (cmp : α → α → Ordering) [Batteries.TransCmp cmp] :
    ∀ x y z : List α, listCmp cmp x y ≠ .gt → listCmp cmp y z ≠ .gt →
      listCmp cmp x z ≠ .gt := by
  intro x
  induction x with
  | nil =>
    intro y z _ _
    cases z <;> simp [listCmp]
  | cons a as ih =>
    intro y z h1 h2
    cases y with
    | nil => simp [listCmp] at h1
    | cons b bs =>
      cases z with
      | nil => simp [listCmp] at h2
      | cons c cs =>
        have h1' : (cmp a b).then (listCmp cmp as bs) ≠ .gt := h1
        have h2' : (cmp b c).then (listCmp cmp bs cs) ≠ .gt := h2
        show (cmp a c).then (listCmp cmp as cs) ≠ .gt
        cases hab : cmp a b with
        | gt => rw [hab, ordThenGt] at h1'; exact absurd rfl h1'
        | lt =>
          cases hbc : cmp b c with
          | gt => rw [hbc, ordThenGt] at h2'; exact absurd rfl h2'
          | lt =>
            rw [Batteries.TransCmp.lt_trans hab hbc, ordThenLt]
            exact fun h => nomatch h
          | eq =>
            rw [← Batteries.TransCmp.cmp_congr_right hbc, hab, ordThenLt]
            exact fun h => nomatch h
        | eq =>
          have has : listCmp cmp as bs ≠ .gt := by rwa [hab, ordThenEq] at h1'
          cases hbc : cmp b c with
          | gt => rw [hbc, ordThenGt] at h2'; exact absurd rfl h2'
          | lt =>
            rw [Batteries.TransCmp.cmp_congr_left hab, hbc, ordThenLt]
            exact fun h => nomatch h
          | eq =>
            have hbs : listCmp cmp bs cs ≠ .gt := by rwa [hbc, ordThenEq] at h2'
            have hac : cmp a c = .eq := by rw [Batteries.TransCmp.cmp_congr_left hab, hbc]
            rw [hac, ordThenEq]
            exact ih bs cs has hbs

instance {α : Type} (cmp : α → α → Ordering) [Batteries.TransCmp cmp] :
    Batteries.TransCmp (listCmp cmp) where
  symm x y := listCmp_swap cmp x y
  le_trans h1 h2 := listCmp_le_trans cmp _ _ _ h1 h2

/-- Derived `Ord` of the `(usize, String)` context entries: first component,
then second. -/
def pairCmp : (ℕ × List ℕ) → (ℕ × List ℕ) → Ordering :=
  compareLex (Ordering.byKey Prod.fst compare) (Ordering.byKey Prod.snd (listCmp compare))

instance : Batteries.TransCmp pairCmp := by
  unfold pairCmp
  infer_instance

/-- The derived `Ord::cmp` of `ProcessorSearchMatch` (src/processor.rs
`#[derive(PartialOrd, Ord)]`): lexicographic in field declaration order. -/
def matchCmp : ProcessorSearchMatch → ProcessorSearchMatch → Ordering :=
  compareLex (Ordering.byKey ProcessorSearchMatch.path (listCmp compare)) <|
  compareLex (Ordering.byKey ProcessorSearchMatch.line_number compare) <|
  compareLex (Ordering.byKey ProcessorSearchMatch.line (listCmp compare)) <|
  compareLex (Ordering.byKey ProcessorSearchMatch.context_before (listCmp pairCmp)) <|
  compareLex (Ordering.byKey ProcessorSearchMatch.context_after (listCmp pairCmp)) <|
  compareLex (Ordering.byKey ProcessorSearchMatch.matched_text (listCmp compare)) <|
  compareLex (Ordering.byKey ProcessorSearchMatch.column_start compare)
    (Ordering.byKey ProcessorSearchMatch.column_end compare)

instance : Batteries.TransCmp matchCmp := by
  unfold matchCmp
  infer_instance

/-- Total preorder induced by the derived `Ord`: `a ≤ b` iff the comparison
is not `Greater`; `Vec::sort` sorts with respect to this relation. -/
def rustMatchLe (a b : ProcessorSearchMatch) : Prop := matchCmp a b ≠ .gt

instance rustMatchLe.decRel : DecidableRel rustMatchLe := fun a b => by
  unfold rustMatchLe
  infer_instance

instance : IsTrans ProcessorSearchMatch rustMatchLe :=
  ⟨fun _ _ _ h1 h2 => Batteries.TransCmp.le_trans h1 h2⟩

instance : IsTotal ProcessorSearchMatch rustMatchLe := by
  refine ⟨fun a b => ?_⟩
  unfold rustMatchLe
  cases h : matchCmp a b with
  | lt => left; simp [h]
  | eq => left; simp [h]
  | gt =>
    right
    have hlt : matchCmp b a = .lt := Batteries.OrientedCmp.cmp_eq_gt.mp h
    simp [hlt]

/-- The ordering asserted by the claim: lexicographic by
(path, line number, column start) only. -/
def claimLe (a b : ProcessorSearchMatch) : Prop :=
  (listCmp compare a.path b.path).then
    ((compare a.line_number b.line_number).then
      (compare a.column_start b.column_start)) ≠ .gt

instance claimLe.decRel : DecidableRel claimLe := fun a b => by
  unfold claimLe
  infer_instance

/-- Embedding of the result assembly of
`StreamingSearchPipeline::search_files_parallel`
(src/streaming_search.rs): per-file results arrive on the channel in some
arrival order; `Err` results are logged to stderr and dropped, `Ok` match
vectors are concatenated, and `all_matches.sort()` orders the whole batch
by the derived record order (a stable sort, modelled by insertion sort). -/
def search_files_parallel_model
    (arrival : List (Except Unit (List ProcessorSearchMatch))) : List ProcessorSearchMatch :=
  List.insertionSort rustMatchLe
    ((arrival.filterMap (fun r =>
      match r with
      | .ok ms => some ms
      | .error _ => none)).flatten)

/-- C9 amended: the orchestrator returns a permutation of the concatenated
per-file results, sorted by the full derived record order (path,
line_number, line, context_before, context_after, matched_text,
column_start, column_end) - not, in general, by (path, line-number,
column-start). -/
theorem parallel_results_sorted_full_order
    (arrival : List (Except Unit (List ProcessorSearchMatch))) :
    (search_files_parallel_model arrival).Perm
      ((arrival.filterMap (fun r =>
        match r with
        | .ok ms => some ms
        | .error _ => none)).flatten) ∧
    (search_files_parallel_model arrival).Sorted rustMatchLe :=
  ⟨List.perm_insertionSort _ _, List.sorted_insertionSort _ _⟩

/-- C9 counterexample: the batch sort is not by (path, line, column).  On
the single-line file `za z a` with pattern `z` the per-file search emits
records at columns 0 and 3 in file order; the record at column 3 has
matched_text `z a`, which sorts before the column-0 record's matched_text
`za z a`, and the derived record order compares matched_text before
column_start, so the sorted batch lists column 3 before column 0 and is not
sorted lexicographically by (path, line number, column start). -/
theorem parallel_sort_not_by_column :
    search_file_streaming 0 false none (BoyerMoore.search [122]) [102]
      [LineRead.ok [122, 97, 32, 122, 32, 97]] =
      .ok [⟨[102], 1, [122, 97, 32, 122, 32, 97], [], [], [122, 97, 32, 122, 32, 97], 0, 1⟩,
           ⟨[102], 1, [122, 97, 32, 122, 32, 97], [], [], [122, 32, 97], 3, 4⟩] ∧
    search_files_parallel_model
      [.ok [⟨[102], 1, [122, 97, 32, 122, 32, 97], [], [], [122, 97, 32, 122, 32, 97], 0, 1⟩,
            ⟨[102], 1, [122, 97, 32, 122, 32, 97], [], [], [122, 32, 97], 3, 4⟩]] =
      [⟨[102], 1, [122, 97, 32, 122, 32, 97], [], [], [122, 32, 97], 3, 4⟩,
       ⟨[102], 1, [122, 97, 32, 122, 32, 97], [], [], [122, 97, 32, 122, 32, 97], 0, 1⟩] ∧
    ¬ List.Sorted claimLe
      [⟨[102], 1, [122, 97, 32, 122, 32, 97], [], [], [122, 32, 97], 3, 4⟩,
       ⟨[102], 1, [122, 97, 32, 122, 32, 97], [], [], [122, 97, 32, 122, 32, 97], 0, 1⟩] := by
  have hb : BoyerMoore.search [122] [122, 97, 32, 122, 32, 97] = [0, 3] := by
    simp [BoyerMoore.search, bmLoop, bm_push, bm_shift, matchBack, bad_char_shift,
      lastIdxOf, good_suffix_table, List.range_succ]
  have hp : processLoop 0 (BoyerMoore.search [122]) [LineRead.ok [122, 97, 32, 122, 32, 97]]
      0 [] =
      .ok [⟨1, [122, 97, 32, 122, 32, 97], [], [], [122, 97, 32, 122, 32, 97], 0, 1⟩,
           ⟨1, [122, 97, 32, 122, 32, 97], [], [], [122, 32, 97], 3, 4⟩] := by
    simp only [processLoop]
    split
    · rename_i e hm
      rw [hb] at hm
      simp at hm
      rw [show handleMatches 0 [122, 97, 32, 122, 32, 97] 1 [(1, [122, 97, 32, 122, 32, 97])]
          [0, 3] [] =
        (Except.ok ([⟨1, [122, 97, 32, 122, 32, 97], [], [], [122, 97, 32, 122, 32, 97], 0, 1⟩,
                     ⟨1, [122, 97, 32, 122, 32, 97], [], [], [122, 32, 97], 3, 4⟩], []) :
          Except Unit (List SearchMatch × List LineRead)) from rfl] at hm
      cases hm
    · rename_i recs rem2 hm
      rw [hb] at hm
      simp at hm
      rw [show handleMatches 0 [122, 97, 32, 122, 32, 97] 1 [(1, [122, 97, 32, 122, 32, 97])]
          [0, 3] [] =
        (Except.ok ([⟨1, [122, 97, 32, 122, 32, 97], [], [], [122, 97, 32, 122, 32, 97], 0, 1⟩,
                     ⟨1, [122, 97, 32, 122, 32, 97], [], [], [122, 32, 97], 3, 4⟩], []) :
          Except Unit (List SearchMatch × List LineRead)) from rfl] at hm
      simp only [Except.ok.injEq, Prod.mk.injEq] at hm
      obtain ⟨hrecs, hrem⟩ := hm
      subst hrecs
      subst hrem
      simp [processLoop]
  refine ⟨by simp [search_file_streaming, hp, applyPostProcessing], by decide, ?_⟩
  intro hsorted
  have hle := (List.sorted_cons.mp hsorted).1 _ (List.mem_cons_self _ _)
  exact absurd hle (by decide)

/-- C8: when a per-file timeout is configured and expires during the file's
search, `search_file` returns `Ok` with an empty match vector, discarding
the partial result and never surfacing an error. -/
theorem timeout_yields_empty_ok (secs : ℕ) (result : Except Unit (List ProcessorSearchMatch)) :
    search_file_with_timeout (some secs) true result = .ok [] := rfl

/-! ### Binary detection (src/processor.rs `is_binary`) -/

/-- Check that a MIME type (as bytes) starts with `text/`. -/
def mime_is_text (mime : List ℕ) : Bool := [116, 101, 120, 116, 47].isPrefixOf mime

/-- UTF-16-LE heuristic of `is_binary`: no even index `i < n - 1` has a
non-zero byte followed by a zero byte. -/
def utf16_le_likely (buf : List ℕ) : Bool :=
  ((List.range (buf.length - 1)).filter (fun i => i % 2 == 0)).all
    (fun i => !(buf.getD i 0 != 0 && buf.getD (i + 1) 0 == 0))

/-- UTF-16-BE heuristic of `is_binary`: no even index `i < n - 1` has a
zero byte followed by a non-zero byte. -/
def utf16_be_likely (buf : List ℕ) : Bool :=
  ((List.range (buf.length - 1)).filter (fun i => i % 2 == 0)).all
    (fun i => !(buf.getD i 0 == 0 && buf.getD (i + 1) 0 != 0))

/-- Null-byte density test of `is_binary`:
`null_bytes as f64 > (n as f64 * 0.1).max(1.0)`, modelled with exact
rationals (the `f64` rounding of `0.1` can only matter at the exact
boundary, which no claim exercises). -/
def null_fraction_binary (buf : List ℕ) : Bool :=
  decide (((buf.filter (fun b => b == 0)).length : ℚ) > max ((buf.length : ℚ) / 10) 1)

/-- Content branch of `is_binary` for a successful read of `n > 0` bytes:
UTF-16/UTF-8 byte-order marks and a regular zero-interleaving pattern mark
the file text; otherwise a high null-byte fraction marks it binary; all
remaining files fall through to text. -/
def is_binary_sample (buf : List ℕ) : Bool :=
  if 2 ≤ buf.length ∧ (buf.take 2 = [255, 254] ∨ buf.take 2 = [254, 255]) then false
  else if 3 ≤ buf.length ∧ buf.take 3 = [239, 187, 191] then false
  else if 4 ≤ buf.length ∧ (utf16_le_likely buf ∨ utf16_be_likely buf) then false
  else if null_fraction_binary buf then true
  else false

/-- Embedding of `is_binary` (src/processor.rs).  The I/O outcomes are
explicit: `inferResult` is the result of `infer::get_from_path` (`none`
models `Err`, `some none` models `Ok(None)`, `some (some mime)` models
`Ok(Some(kind))` with that MIME type); `openResult` combines `File::open`
and the sample read (`none` models a failed open, `some none` a failed
read, `some (some buf)` a successful read of `buf.length` bytes).  Every
failure path falls through to `false`. -/
def is_binary (inferResult : Option (Option (List ℕ)))
    (openResult : Option (Option (List ℕ))) : Bool :=
  if (match inferResult with
      | some (some mime) => !mime_is_text mime
      | _ => false) then true
  else
    match openResult with
    | some (some buf) => if 0 < buf.length then is_binary_sample buf else false
    | _ => false

/-- C10: binary detection is fail-open.  When the file cannot be opened or
its leading bytes cannot be read (in which case `infer::get_from_path`,
which opens the same file, also fails to produce a type), or when the read
returns zero bytes, `is_binary` returns `false` and the file is treated as
text. -/
theorem is_binary_fail_open (inferResult openResult : Option (Option (List ℕ)))
    (hinf : inferResult = none ∨ inferResult = some none)
    (hopen : openResult = none ∨ openResult = some none ∨ openResult = some (some [])) :
    is_binary inferResult openResult = false := by
  rcases hinf with rfl | rfl <;>
    rcases hopen with rfl | rfl | rfl <;> rfl

theorem is_binary_fail_open_witness :
    ((none : Option (Option (List ℕ))) = none ∨ (none : Option (Option (List ℕ))) = some none) ∧
    ((none : Option (Option (List ℕ))) = none ∨ (none : Option (Option (List ℕ))) = some none ∨
      (none : Option (Option (List ℕ))) = some (some [])) ∧
    is_binary none none = false :=
  ⟨Or.inl rfl, Or.inl rfl, is_binary_fail_open none none (Or.inl rfl) (Or.inl rfl)⟩

/-- C5: creating the simple matcher through the factory with the
case-sensitivity flag off still yields a case-sensitive matcher
(`SimpleSearch::new` hard-codes `case_sensitive: true`), so the search for
pattern `A` in text `a` finds nothing even though the lower-cased text
contains the lower-cased pattern; no lower-case folding ever happens. -/
theorem factory_insensitive_still_sensitive :
    (create_simple_with_case_sensitivity [65] false).case_sensitive = true ∧
    (create_simple_with_case_sensitivity [65] false).search [97] = some [] ∧
    occursAt (asciiLower [65]) (asciiLower [97]) 0 := by
  refine ⟨by decide, ?_, by decide⟩
  simp [create_simple_with_case_sensitivity, SimpleSearch.new, SimpleSearch.search,
    simpleLoop, findAbs, scanForward, occursAt, isCharBoundary]

end Rfgrep
